import Mathlib

/-!
# Fixed-width record decoding (`demo.go`)

A shallow embedding of the decoding core of `demo.go`:
`Config.UnmarshalJSON`, `Code2Message.UnmarshalJSON`, `parseLine` and
`parseFile`, followed by theorems about them.

Conventions of the embedding.

* A Go `string` is a sequence of bytes: `GoString = List Byte`.
* A Go `int` is a 64-bit two's-complement integer: `GoInt`; arithmetic on it
  wraps (`wrap64`).
* A Go `map[string]V` is an association list with at most one binding per key
  read through `GoMap.lookup`; `m[k]` on a missing key is the zero value of `V`
  (`GoMap.index`), and `m[k] = v` replaces the binding of `k` or adds one
  (`GoMap.set`).
* A run-time panic (index or slice out of range) is the result `none`; so is
  the exit of the process through `log.Fatal`: in both cases the function
  does not return.
* `json.Unmarshal` and `bufio.Scanner` are library code: the two `UnmarshalJSON`
  loops run over the slice of entries that `json.Unmarshal` has filled, and
  `parseFile` runs over what the scanner delivers for the opened file: the
  sequence of lines that `scanner.Text()` yields (each without its line
  terminator) and whether `scanner.Err()` is non-nil after the loop (a read
  error, or a line too long for the buffer of the scanner).
-/

namespace FixedWidth

/-! ## Bytes, strings, integers -/

/-- One byte of a Go string. -/
abbrev Byte := Fin 256

/-- A Go string: an immutable sequence of bytes. -/
abbrev GoString := List Byte

/-- Smallest value of a Go `int` on a 64-bit target. -/
def minInt : Int := -9223372036854775808

/-- Largest value of a Go `int` on a 64-bit target. -/
def maxInt : Int := 9223372036854775807

/-- Two's-complement wrap-around of an integer result to 64 bits. -/
def wrap64 (x : Int) : Int :=
  (x + 9223372036854775808) % 18446744073709551616 - 9223372036854775808

/-- A Go `int`: an integer in the range of 64-bit two's complement. -/
structure GoInt where
  val : Int
  inRange : minInt ≤ val ∧ val ≤ maxInt
deriving DecidableEq

/-- Conversion of an integer to a Go `int` (wrapping). -/
def GoInt.ofInt (x : Int) : GoInt :=
  ⟨wrap64 x, by unfold wrap64 minInt maxInt; omega⟩

instance (n : Nat) : OfNat GoInt n := ⟨GoInt.ofInt n⟩

/-- The string conversion `string(b)` of a byte `b`: the UTF-8 encoding of
the code point whose number is `b` (one byte below 0x80, two bytes from 0x80). -/
def byteToString (b : Byte) : GoString :=
  if h : b.val < 128 then [b]
  else [⟨192 + b.val / 64, by omega⟩, ⟨128 + b.val % 64, by omega⟩]

/-- The slice expression `s[low:high]` on a string: panics unless
`0 ≤ low ≤ high ≤ len(s)`. -/
def sliceStr (s : GoString) (low high : Int) : Option GoString :=
  if 0 ≤ low ∧ low ≤ high ∧ high ≤ (s.length : Int) then
    some ((s.drop low.toNat).take (high.toNat - low.toNat))
  else none

/-- The index expression `s[i]` on a string: panics unless `0 ≤ i < len(s)`. -/
def indexStr (s : GoString) (i : Nat) : Option Byte := s.get? i

/-! ## Maps -/

/-- A Go `map[string]V`. -/
structure GoMap (V : Type) where
  entries : List (GoString × V)
deriving DecidableEq

namespace GoMap

variable {V : Type}

/-- The map that `make` returns. -/
def empty : GoMap V := ⟨[]⟩

/-- Lookup in a list of bindings: the first binding of the key. -/
def lookupList (k : GoString) : List (GoString × V) → Option V
  | [] => none
  | (k', v) :: rest => if k' = k then some v else lookupList k rest

/-- Assignment in a list of bindings: replace the binding of the key, or add one. -/
def setList (k : GoString) (v : V) : List (GoString × V) → List (GoString × V)
  | [] => [(k, v)]
  | (k', v') :: rest => if k' = k then (k, v) :: rest else (k', v') :: setList k v rest

/-- The comma-ok lookup `v, ok := m[k]`. -/
def lookup (m : GoMap V) (k : GoString) : Option V := lookupList k m.entries

/-- The assignment `m[k] = v`. -/
def set (m : GoMap V) (k : GoString) (v : V) : GoMap V := ⟨setList k v m.entries⟩

/-- The index expression `m[k]`, with the zero value `zero` for a missing key. -/
def index (zero : V) (m : GoMap V) (k : GoString) : V := (m.lookup k).getD zero

/-- The keys of the map. -/
def keys (m : GoMap V) : List GoString := m.entries.map Prod.fst

end GoMap

/-! ## The data model of `demo.go` -/

/-- SchemaValue is an entry of the map Config. -/
structure SchemaValue where
  Name : GoString
  Length : GoInt
  Start : GoInt
  End : GoInt
deriving DecidableEq

/-- Config: `map[string][]SchemaValue`. -/
abbrev Config := GoMap (List SchemaValue)

/-- Code2Message: `map[string]string`. -/
abbrev Code2Message := GoMap GoString

/-- Message: `map[string]string`. -/
abbrev Message := GoMap GoString

/-- MyData: `map[string][]Message`. -/
abbrev MyData := GoMap (List Message)

/-- The local struct `schemaEntry` of `Config.UnmarshalJSON`. -/
structure schemaEntry where
  Message : GoString
  Name : GoString
  Length : GoInt
  Start : GoInt
  End : GoInt
deriving DecidableEq

/-- The local struct `messageEntry` of `Code2Message.UnmarshalJSON`. -/
structure messageEntry where
  Message : GoString
  Code : GoString
deriving DecidableEq

/-- The string literal `"isin"`. -/
def isin : GoString := [105, 115, 105, 110]

/-! ## The operations -/

/-- The loop of `Config.UnmarshalJSON` over the unmarshalled entries:
`tmp[ent.Message] = append(tmp[ent.Message], SchemaValue{...})`. -/
def configLoop (tmp : Config) : List schemaEntry → Config
  | [] => tmp
  | ent :: rest =>
    configLoop
      (tmp.set ent.Message
        (tmp.index [] ent.Message ++ [⟨ent.Name, ent.Length, ent.Start, ent.End⟩]))
      rest

/-- The map that `Config.UnmarshalJSON` assigns to its receiver, from the
entries that `json.Unmarshal` produced. -/
def Config.UnmarshalJSON (entries : List schemaEntry) : Config :=
  configLoop GoMap.empty entries

/-- The loop of `Code2Message.UnmarshalJSON`: `tmp[ent.Code] = ent.Message`. -/
def code2messageLoop (tmp : Code2Message) : List messageEntry → Code2Message
  | [] => tmp
  | ent :: rest => code2messageLoop (tmp.set ent.Code ent.Message) rest

/-- The map that `Code2Message.UnmarshalJSON` assigns to its receiver. -/
def Code2Message.UnmarshalJSON (entries : List messageEntry) : Code2Message :=
  code2messageLoop GoMap.empty entries

/-- The value `line[entry.Start-1 : entry.End]` of one descriptor. -/
def fieldValue (line : GoString) (entry : SchemaValue) : Option GoString :=
  sliceStr line (wrap64 (entry.Start.val - 1)) entry.End.val

/-- The loop of `parseLine` over the schema:
`message[entry.Name] = line[entry.Start-1 : entry.End]`. -/
def parseEntries (line : GoString) (message : Message) : List SchemaValue → Option Message
  | [] => some message
  | entry :: rest =>
    match fieldValue line entry with
    | none => none
    | some value => parseEntries line (message.set entry.Name value) rest

/-- The first half of `parseLine`: `code := line[15:19]`,
`messageID := code2message[code]`, `level := string(line[19])` and
`schema := c[messageID+level]`; `none` when the line is too short for the
slice or the index. -/
def resolveSchema (line : GoString) (c : Config) (code2message : Code2Message) :
    Option (List SchemaValue) :=
  match sliceStr line 15 19 with
  | none => none
  | some code =>
    let messageID := code2message.index [] code
    match indexStr line 19 with
    | none => none
    | some b =>
      let level := byteToString b
      some (c.index [] (messageID ++ level))

/-- The function `parseLine`: resolve the schema, then run the loop over it
on a fresh map; `none` is a run-time panic. -/
def parseLine (line : GoString) (c : Config) (code2message : Code2Message) : Option Message :=
  match resolveSchema line c code2message with
  | none => none
  | some schema => parseEntries line GoMap.empty schema

/-- The body of the loop of `parseFile` for one decoded line. -/
def aggregate (mydata : MyData) (message : Message) : MyData :=
  if message.index [] isin ≠ [] then
    mydata.set (message.index [] isin) (mydata.index [] (message.index [] isin) ++ [message])
  else mydata

/-- The loop of `parseFile` over the lines of the file; a panic of `parseLine`
is not recovered and ends the run. -/
def parseFileLoop (c : Config) (code2message : Code2Message) (mydata : MyData) :
    List GoString → Option MyData
  | [] => some mydata
  | line :: rest =>
    match parseLine line c code2message with
    | none => none
    | some message => parseFileLoop c code2message (aggregate mydata message) rest

/-- The function `parseFile` on what the scanner delivers for the file:
`lines` are the values of `scanner.Text()` in the loop, and `scanErr` tells
whether `scanner.Err()` is non-nil after the loop, in which case `log.Fatal`
ends the process. The result `none` means that no aggregate is returned: a
panic of `parseLine` in the loop, or `log.Fatal` after it. -/
def parseFile (lines : List GoString) (scanErr : Bool) (c : Config)
    (code2message : Code2Message) : Option MyData :=
  match parseFileLoop c code2message GoMap.empty lines with
  | none => none
  | some mydata => if scanErr then none else some mydata

/-! ## Concrete inputs used by the witnesses and counterexamples -/

/-- A 70-byte line: 15 bytes `H`, the code token `1234`, the level `A`,
29 blanks, `US0378331005` at 1-based offsets 50..61 and `000123.45` at 62..70. -/
def tradeLine : GoString :=
  List.replicate 15 72 ++ [49, 50, 51, 52] ++ [65] ++ List.replicate 29 32 ++
    [85, 83, 48, 51, 55, 56, 51, 51, 49, 48, 48, 53] ++ [48, 48, 48, 49, 50, 51, 46, 52, 53]

/-- The descriptors `isin` 50..61, `price` 62..70 and `head` 1..16. -/
def tradeSchema : List SchemaValue :=
  [⟨isin, 12, 50, 61⟩, ⟨[112, 114, 105, 99, 101], 9, 62, 70⟩, ⟨[104, 101, 97, 100], 16, 1, 16⟩]

/-- A schema model with the one key `TRADEA`. -/
def tradeConfig : Config := ⟨[([84, 82, 65, 68, 69, 65], tradeSchema)]⟩

/-- A code table that maps `1234` to `TRADE`. -/
def tradeTable : Code2Message := ⟨[([49, 50, 51, 52], [84, 82, 65, 68, 69])]⟩

/-- A 20-byte line in a single-byte encoding: `US0378331005`, three blanks, the
code token `9999` and the level byte 0xE9. -/
def latin1Line : GoString :=
  [85, 83, 48, 51, 55, 56, 51, 51, 49, 48, 48, 53] ++ [32, 32, 32] ++ [57, 57, 57, 57] ++ [233]

/-- A schema model whose one key is the two bytes 0xC3 0xA9, the UTF-8 encoding
of U+00E9, holding the descriptor `isin` 1..12. -/
def accentConfig : Config := ⟨[([195, 169], [⟨isin, 12, 1, 12⟩])]⟩

/-- A code table without entries. -/
def emptyTable : Code2Message := GoMap.empty

/-- Two descriptors of the same name `isin`, 1..12 and then 50..61. -/
def repeatSchema : List SchemaValue := [⟨isin, 12, 1, 12⟩, ⟨isin, 12, 50, 61⟩]

/-- A schema model that holds `repeatSchema` under `TRADEA`. -/
def repeatConfig : Config := ⟨[([84, 82, 65, 68, 69, 65], repeatSchema)]⟩

/-- A schema model whose one key is `A`, a level tag without an identifier,
holding the descriptor `isin` 50..61. -/
def levelConfig : Config := ⟨[([65], [⟨isin, 12, 50, 61⟩])]⟩

/-- A line of 10 bytes. -/
def shortLine : GoString := [72, 72, 72, 72, 72, 72, 72, 72, 72, 72]

/-- The record that `tradeLine` decodes to under `tradeConfig` and `tradeTable`. -/
def tradeRecord : Message :=
  ⟨[(isin, [85, 83, 48, 51, 55, 56, 51, 51, 49, 48, 48, 53]),
    ([112, 114, 105, 99, 101], [48, 48, 48, 49, 50, 51, 46, 52, 53]),
    ([104, 101, 97, 100], List.replicate 15 72 ++ [49])]⟩

/-- The aggregate of two lines `tradeLine`. -/
def tradeAggregate : MyData :=
  ⟨[([85, 83, 48, 51, 55, 56, 51, 51, 49, 48, 48, 53], [tradeRecord, tradeRecord])]⟩

/-- The string literal `price`. -/
def price : GoString := [112, 114, 105, 99, 101]

/-- The two descriptors of the end-to-end scenario: `isin` 50..61 and
`price` 62..70. -/
def scenarioSchema : List SchemaValue := [⟨isin, 12, 50, 61⟩, ⟨price, 9, 62, 70⟩]

/-- A schema model that holds `scenarioSchema` under `TRADEA`. -/
def scenarioConfig : Config := ⟨[([84, 82, 65, 68, 69, 65], scenarioSchema)]⟩

/-- The schema model `tradeConfig` with other declared lengths. -/
def relengthConfig : Config :=
  ⟨[([84, 82, 65, 68, 69, 65],
    [⟨isin, 0, 50, 61⟩, ⟨[112, 114, 105, 99, 101], 99, 62, 70⟩, ⟨[104, 101, 97, 100], 7, 1, 16⟩])]⟩

/-- A schema model whose descriptor `isin` has `start = end + 1`. -/
def emptyFieldConfig : Config := ⟨[([84, 82, 65, 68, 69, 65], [⟨isin, 0, 62, 61⟩])]⟩

/-- A schema model whose descriptor `isin` has `start = 0`. -/
def zeroStartConfig : Config := ⟨[([84, 82, 65, 68, 69, 65], [⟨isin, 12, 0, 12⟩])]⟩

end FixedWidth

namespace FixedWidth

/-! ## Lemmas on maps -/

namespace GoMap

variable {V : Type}

theorem lookupList_setList (k k' : GoString) (v : V) (l : List (GoString × V)) :
    lookupList k' (setList k v l) = if k = k' then some v else lookupList k' l := by
  induction l with
  | nil => simp [setList, lookupList]
  | cons p rest ih =>
    obtain ⟨k0, v0⟩ := p
    by_cases h0 : k0 = k
    · subst h0
      by_cases h1 : k0 = k' <;> simp [setList, lookupList, h1]
    · by_cases h1 : k0 = k'
      · subst h1
        have h2 : ¬ k = k0 := fun h => h0 h.symm
        simp [setList, lookupList, h0, h2]
      · simp [setList, lookupList, h0, h1, ih]

theorem lookup_set (m : GoMap V) (k k' : GoString) (v : V) :
    (m.set k v).lookup k' = if k = k' then some v else m.lookup k' :=
  lookupList_setList k k' v m.entries

theorem lookup_empty (k : GoString) : (empty : GoMap V).lookup k = none := rfl

theorem index_empty (zero : V) (k : GoString) : (empty : GoMap V).index zero k = zero := rfl

theorem index_set (zero : V) (m : GoMap V) (k k' : GoString) (v : V) :
    (m.set k v).index zero k' = if k = k' then v else m.index zero k' := by
  unfold index
  rw [lookup_set]
  split <;> rfl

theorem mem_keys_iff (m : GoMap V) (k : GoString) :
    k ∈ m.keys ↔ (m.lookup k).isSome = true := by
  obtain ⟨l⟩ := m
  unfold keys lookup
  induction l with
  | nil => simp [lookupList]
  | cons p rest ih =>
    obtain ⟨k0, v0⟩ := p
    by_cases h0 : k0 = k
    · simp [lookupList, h0]
    · have h1 : ¬ k = k0 := fun h => h0 h.symm
      simp only [List.map_cons, List.mem_cons, lookupList, h0, h1, if_false, false_or]
      exact ih

end GoMap

/-! ## Lemmas on lists -/

theorem getLast?_filter_cons {α : Type} (p : α → Bool) (a : α) (l : List α) :
    ((a :: l).filter p).getLast? =
      ((l.filter p).getLast?).or (if p a = true then some a else none) := by
  by_cases h : p a = true
  · rw [List.filter_cons_of_pos h, List.getLast?_cons]
    cases (l.filter p).getLast? <;> simp [h]
  · rw [List.filter_cons_of_neg h]
    cases (l.filter p).getLast? <;> simp [h]

/-! ## The two loaders -/

theorem configLoop_index (tmp : Config) (entries : List schemaEntry) (k : GoString) :
    (configLoop tmp entries).index [] k =
      tmp.index [] k ++
        (entries.filter (fun e => decide (e.Message = k))).map
          (fun e => (⟨e.Name, e.Length, e.Start, e.End⟩ : SchemaValue)) := by
  induction entries generalizing tmp with
  | nil => simp [configLoop]
  | cons ent rest ih =>
    rw [configLoop, ih, GoMap.index_set]
    by_cases h : ent.Message = k
    · simp [h]
    · simp [h]

theorem code2messageLoop_lookup (tmp : Code2Message) (entries : List messageEntry)
    (c : GoString) :
    (code2messageLoop tmp entries).lookup c =
      (((entries.filter (fun e => decide (e.Code = c))).getLast?).map
        (fun e => e.Message)).or (tmp.lookup c) := by
  induction entries generalizing tmp with
  | nil => simp [code2messageLoop]
  | cons ent rest ih =>
    rw [code2messageLoop, ih, GoMap.lookup_set, getLast?_filter_cons]
    cases (rest.filter (fun e => decide (e.Code = c))).getLast? with
    | some e => simp
    | none =>
      by_cases h : ent.Code = c <;> simp [h]

theorem configLoop_lookup_none (tmp : Config) (entries : List schemaEntry) (k : GoString) :
    (configLoop tmp entries).lookup k = none ↔
      (tmp.lookup k = none ∧ ∀ e ∈ entries, e.Message ≠ k) := by
  induction entries generalizing tmp with
  | nil => simp [configLoop]
  | cons ent rest ih =>
    rw [configLoop, ih, GoMap.lookup_set]
    by_cases h : ent.Message = k
    · simp [h]
    · simp [h]

/-- C6: the schema model that `Config.UnmarshalJSON` builds holds under every
key `k` the entries whose message is `k`, in their original relative order,
each as its (name, length, start, end); a key is absent from the model, and
resolves to the empty sequence, exactly when no entry carries it. -/
theorem Config_UnmarshalJSON_groups (entries : List schemaEntry) (k : GoString) :
    (Config.UnmarshalJSON entries).index [] k =
        (entries.filter (fun e => decide (e.Message = k))).map
          (fun e => (⟨e.Name, e.Length, e.Start, e.End⟩ : SchemaValue)) ∧
      ((Config.UnmarshalJSON entries).lookup k = none ↔ ∀ e ∈ entries, e.Message ≠ k) ∧
      ((Config.UnmarshalJSON entries).index [] k = [] ↔ ∀ e ∈ entries, e.Message ≠ k) := by
  have h := configLoop_index GoMap.empty entries k
  rw [GoMap.index_empty, List.nil_append] at h
  have hn := configLoop_lookup_none GoMap.empty entries k
  rw [GoMap.lookup_empty] at hn
  refine ⟨h, ?_, ?_⟩
  · unfold Config.UnmarshalJSON
    rw [hn]
    simp
  · unfold Config.UnmarshalJSON
    rw [h, List.map_eq_nil_iff, List.filter_eq_nil_iff]
    simp

/-- C7: the code table that `Code2Message.UnmarshalJSON` builds maps every
code `c` to the message of the last entry whose code is `c`; a code is absent
from the table exactly when no entry carries it, and indexing an absent code
yields the empty string. -/
theorem Code2Message_UnmarshalJSON_last_wins (entries : List messageEntry) (c : GoString) :
    (Code2Message.UnmarshalJSON entries).lookup c =
        ((entries.filter (fun e => decide (e.Code = c))).getLast?).map (fun e => e.Message) ∧
      ((Code2Message.UnmarshalJSON entries).lookup c = none ↔ ∀ e ∈ entries, e.Code ≠ c) ∧
      (Code2Message.UnmarshalJSON entries).index [] c =
        (((entries.filter (fun e => decide (e.Code = c))).getLast?).map
          (fun e => e.Message)).getD [] := by
  have h := code2messageLoop_lookup GoMap.empty entries c
  rw [GoMap.lookup_empty, Option.or_none] at h
  refine ⟨h, ?_, ?_⟩
  · unfold Code2Message.UnmarshalJSON
    rw [h, Option.map_eq_none', List.getLast?_eq_none_iff, List.filter_eq_nil_iff]
    simp
  · unfold GoMap.index Code2Message.UnmarshalJSON
    rw [h]

end FixedWidth

namespace FixedWidth

/-! ## The line decoder -/

theorem sliceStr_eq_some (s : GoString) (low high : Int) (v : GoString)
    (h : sliceStr s low high = some v) :
    0 ≤ low ∧ low ≤ high ∧ high ≤ (s.length : Int) ∧
      v = (s.drop low.toNat).take (high.toNat - low.toNat) := by
  unfold sliceStr at h
  split at h
  · rename_i hc
    simp only [Option.some.injEq] at h
    exact ⟨hc.1, hc.2.1, hc.2.2, h.symm⟩
  · exact absurd h (by simp)

theorem sliceStr_of_bounds (s : GoString) (low high : Int)
    (h : 0 ≤ low ∧ low ≤ high ∧ high ≤ (s.length : Int)) :
    sliceStr s low high = some ((s.drop low.toNat).take (high.toNat - low.toNat)) := by
  unfold sliceStr
  rw [if_pos h]

theorem sliceStr_eq_none_iff (s : GoString) (low high : Int) :
    sliceStr s low high = none ↔ (low < 0 ∨ high < low ∨ (s.length : Int) < high) := by
  unfold sliceStr
  split
  · rename_i hc
    constructor
    · intro h
      exact absurd h (by simp)
    · intro h
      omega
  · rename_i hc
    constructor
    · intro _
      omega
    · intro _
      rfl

theorem resolveSchema_of_length (line : GoString) (c : Config) (code2message : Code2Message)
    (hlen : 20 ≤ line.length) :
    ∃ b, line.get? 19 = some b ∧
      resolveSchema line c code2message =
        some (c.index [] (code2message.index [] ((line.drop 15).take 4) ++ byteToString b)) := by
  have hb : ∃ b, line.get? 19 = some b := by
    have h19 : 19 < line.length := by omega
    exact ⟨line.get ⟨19, h19⟩, List.get?_eq_get h19⟩
  obtain ⟨b, hb⟩ := hb
  refine ⟨b, hb, ?_⟩
  have hs : sliceStr line 15 19 = some ((line.drop 15).take 4) := by
    rw [sliceStr_of_bounds line 15 19 ⟨by omega, by omega, by omega⟩]
    rfl
  unfold resolveSchema indexStr
  rw [hs, hb]

theorem resolveSchema_short (line : GoString) (c : Config) (code2message : Code2Message)
    (hlen : line.length < 20) : resolveSchema line c code2message = none := by
  have hi : indexStr line 19 = none := by
    unfold indexStr
    rw [List.get?_eq_none]
    omega
  unfold resolveSchema
  rw [hi]
  split <;> rfl

theorem parseEntries_isSome (line : GoString) (message : Message) (schema : List SchemaValue) :
    (parseEntries line message schema).isSome = true ↔
      ∀ d ∈ schema, (fieldValue line d).isSome = true := by
  induction schema generalizing message with
  | nil => simp [parseEntries]
  | cons d rest ih =>
    unfold parseEntries
    cases hv : fieldValue line d with
    | none => simp [hv]
    | some v => simp [hv, ih]

theorem parseEntries_lookup (line : GoString) (message r : Message)
    (schema : List SchemaValue) (h : parseEntries line message schema = some r)
    (n : GoString) :
    r.lookup n =
      (((schema.filter (fun d => decide (d.Name = n))).getLast?).bind
        (fun d => fieldValue line d)).or (message.lookup n) := by
  induction schema generalizing message with
  | nil =>
    simp only [parseEntries, Option.some.injEq] at h
    subst h
    simp
  | cons d rest ih =>
    unfold parseEntries at h
    cases hv : fieldValue line d with
    | none => rw [hv] at h; exact absurd h (by simp)
    | some v =>
      rw [hv] at h
      simp only [] at h
      have hsome : ∀ e ∈ rest, (fieldValue line e).isSome = true :=
        (parseEntries_isSome line _ rest).1 (by rw [h]; rfl)
      rw [ih _ h, GoMap.lookup_set, getLast?_filter_cons]
      cases hl : (rest.filter (fun d => decide (d.Name = n))).getLast? with
      | some e =>
        have he : e ∈ rest := by
          have := List.mem_of_getLast?_eq_some hl
          exact (List.mem_filter.1 this).1
        have := hsome e he
        cases hfe : fieldValue line e with
        | none => rw [hfe] at this; exact absurd this (by simp)
        | some w => simp [hfe]
      | none =>
        by_cases hn : d.Name = n <;> simp [hn, hv]

end FixedWidth

namespace FixedWidth

theorem fieldValue_of_range (line : GoString) (d : SchemaValue)
    (h : 1 ≤ d.Start.val ∧ wrap64 (d.Start.val - 1) ≤ d.End.val ∧
      d.End.val ≤ (line.length : Int)) :
    fieldValue line d =
      some ((line.drop (d.Start.val - 1).toNat).take
        (d.End.val.toNat - (d.Start.val - 1).toNat)) := by
  have hs := d.Start.inRange
  unfold minInt maxInt at hs
  have hw : wrap64 (d.Start.val - 1) = d.Start.val - 1 := by
    unfold wrap64
    omega
  unfold fieldValue
  rw [hw] at h ⊢
  exact sliceStr_of_bounds line _ _ ⟨by omega, h.2.1, h.2.2⟩

theorem filter_name_of_nodup (schema : List SchemaValue) (d : SchemaValue)
    (hnames : (schema.map (fun e => e.Name)).Nodup) (hd : d ∈ schema) :
    schema.filter (fun e => decide (e.Name = d.Name)) = [d] := by
  induction schema with
  | nil => exact absurd hd (by simp)
  | cons e rest ih =>
    rw [List.map_cons, List.nodup_cons] at hnames
    rcases List.mem_cons.1 hd with hde | hdr
    · subst hde
      have hrest : rest.filter (fun e => decide (e.Name = d.Name)) = [] := by
        rw [List.filter_eq_nil_iff]
        intro x hx hxd
        exact hnames.1 (List.mem_map.2 ⟨x, hx, by simpa using hxd⟩)
      simp [List.filter_cons, hrest]
    · have hne : ¬ e.Name = d.Name := by
        intro heq
        exact hnames.1 (List.mem_map.2 ⟨d, hdr, heq.symm⟩)
      simp [List.filter_cons, hne, ih hnames.2 hdr]

/-- C1: when the line has at least 20 bytes and the descriptors resolved for it
have pairwise distinct names and offsets with `1 ≤ start ≤ end ≤ len(line)`,
`parseLine` returns a record that maps each descriptor's name to the bytes of
the line at 0-based offsets `start-1` up to and including `end-1`. -/
theorem parseLine_extracts_fields (line : GoString) (c : Config) (code2message : Code2Message)
    (schema : List SchemaValue) (hlen : 20 ≤ line.length)
    (hres : resolveSchema line c code2message = some schema)
    (hnames : (schema.map (fun d => d.Name)).Nodup)
    (hrange : ∀ d ∈ schema,
      1 ≤ d.Start.val ∧ d.Start.val ≤ d.End.val ∧ d.End.val ≤ (line.length : Int)) :
    ∃ r, parseLine line c code2message = some r ∧
      ∀ d ∈ schema, ∃ v, r.lookup d.Name = some v ∧
        (v.length : Int) = d.End.val - d.Start.val + 1 ∧
        ∀ i : Nat, i < v.length → v.get? i = line.get? ((d.Start.val - 1).toNat + i) := by
  have hfv : ∀ d ∈ schema, fieldValue line d =
      some ((line.drop (d.Start.val - 1).toNat).take
        (d.End.val.toNat - (d.Start.val - 1).toNat)) := by
    intro d hd
    have hr := hrange d hd
    have hs := d.Start.inRange
    unfold minInt maxInt at hs
    refine fieldValue_of_range line d ⟨hr.1, ?_, hr.2.2⟩
    unfold wrap64
    omega
  have hsome : (parseEntries line GoMap.empty schema).isSome = true :=
    (parseEntries_isSome line GoMap.empty schema).2 (fun d hd => by rw [hfv d hd]; rfl)
  obtain ⟨r, hr⟩ := Option.isSome_iff_exists.1 hsome
  have hpl : parseLine line c code2message = some r := by
    unfold parseLine
    rw [hres]
    exact hr
  refine ⟨r, hpl, fun d hd => ?_⟩
  have hlk := parseEntries_lookup line GoMap.empty r schema hr d.Name
  rw [filter_name_of_nodup schema d hnames hd, GoMap.lookup_empty] at hlk
  simp only [List.getLast?_singleton, Option.some_bind, Option.or_none] at hlk
  rw [hfv d hd] at hlk
  have hrg := hrange d hd
  refine ⟨_, hlk, ?_, ?_⟩
  · rw [List.length_take, List.length_drop]
    omega
  · intro i hi
    rw [List.length_take, List.length_drop] at hi
    rw [List.get?_eq_getElem?, List.get?_eq_getElem?, List.getElem?_take_of_lt (by omega),
      List.getElem?_drop]

theorem parseLine_extracts_fields_witness :
    (∃ r, parseLine tradeLine tradeConfig tradeTable = some r ∧
      ∀ d ∈ tradeSchema, ∃ v, r.lookup d.Name = some v ∧
        (v.length : Int) = d.End.val - d.Start.val + 1 ∧
        ∀ i : Nat, i < v.length → v.get? i = tradeLine.get? ((d.Start.val - 1).toNat + i)) ∧
      parseLine tradeLine tradeConfig tradeTable = some tradeRecord ∧
      tradeRecord.lookup [104, 101, 97, 100] = some (tradeLine.take 16) :=
  ⟨parseLine_extracts_fields tradeLine tradeConfig tradeTable tradeSchema
    (by decide) (by decide) (by decide) (by decide), by decide, by decide⟩

end FixedWidth


namespace FixedWidth

theorem parseEntries_mem_keys (line : GoString) (message r : Message)
    (schema : List SchemaValue) (h : parseEntries line message schema = some r)
    (n : GoString) :
    n ∈ r.keys ↔ (n ∈ message.keys ∨ ∃ d ∈ schema, d.Name = n) := by
  induction schema generalizing message with
  | nil =>
    simp only [parseEntries, Option.some.injEq] at h
    subst h
    simp
  | cons d rest ih =>
    unfold parseEntries at h
    cases hv : fieldValue line d with
    | none => rw [hv] at h; exact absurd h (by simp)
    | some v =>
      rw [hv] at h
      simp only [] at h
      rw [ih _ h, GoMap.mem_keys_iff, GoMap.lookup_set, GoMap.mem_keys_iff]
      by_cases hn : d.Name = n
      · simp [hn]
      · simp [hn]

/-- C8: when `parseLine` succeeds, the record maps every name `n` that occurs
in the resolved schema to the substring `line[start-1 : end]` extracted by the
last descriptor named `n` in schema order; an earlier descriptor of the same
name does not decide the value. -/
theorem parseLine_last_write_wins (line : GoString) (c : Config) (code2message : Code2Message)
    (schema : List SchemaValue) (r : Message)
    (hres : resolveSchema line c code2message = some schema)
    (hr : parseLine line c code2message = some r)
    (n : GoString) (d : SchemaValue)
    (hd : (schema.filter (fun e => decide (e.Name = n))).getLast? = some d) :
    ∃ v, fieldValue line d = some v ∧ r.lookup n = some v := by
  unfold parseLine at hr
  rw [hres] at hr
  simp only [] at hr
  have hlk := parseEntries_lookup line GoMap.empty r schema hr n
  rw [hd, GoMap.lookup_empty] at hlk
  simp only [Option.some_bind, Option.or_none] at hlk
  have hmem : d ∈ schema := (List.mem_filter.1 (List.mem_of_getLast?_eq_some hd)).1
  have hsome := (parseEntries_isSome line GoMap.empty schema).1 (by rw [hr]; rfl) d hmem
  obtain ⟨v, hv⟩ := Option.isSome_iff_exists.1 hsome
  exact ⟨v, hv, by rw [hlk, hv]⟩

theorem parseLine_last_write_wins_witness :
    2 ≤ (repeatSchema.filter (fun e => decide (e.Name = isin))).length ∧
      ∃ v, fieldValue tradeLine ⟨isin, 12, 50, 61⟩ = some v ∧
        (⟨[(isin, [85, 83, 48, 51, 55, 56, 51, 51, 49, 48, 48, 53])]⟩ : Message).lookup isin =
          some v :=
  ⟨by decide,
    parseLine_last_write_wins tradeLine repeatConfig tradeTable repeatSchema
      ⟨[(isin, [85, 83, 48, 51, 55, 56, 51, 51, 49, 48, 48, 53])]⟩ (by decide) (by decide)
      isin ⟨isin, 12, 50, 61⟩ (by decide)⟩

end FixedWidth

namespace FixedWidth

/-! ## The record-type key -/

theorem byteToString_ascii (b : Byte) (h : b.val < 128) : byteToString b = [b] := by
  unfold byteToString
  rw [dif_pos h]

theorem parseLine_of_resolveSchema (line : GoString) (c : Config) (code2message : Code2Message)
    (schema : List SchemaValue) (hres : resolveSchema line c code2message = some schema) :
    parseLine line c code2message = parseEntries line GoMap.empty schema := by
  unfold parseLine
  rw [hres]

theorem parseLine_short (line : GoString) (c : Config) (code2message : Code2Message)
    (hlen : line.length < 20) : parseLine line c code2message = none := by
  unfold parseLine
  rw [resolveSchema_short line c code2message hlen]

theorem index_of_lookup_none {V : Type} (zero : V) (m : GoMap V) (k : GoString)
    (h : m.lookup k = none) : m.index zero k = zero := by
  unfold GoMap.index
  rw [h]
  rfl

theorem aggregate_empty (mydata : MyData) : aggregate mydata GoMap.empty = mydata := by
  unfold aggregate
  rw [GoMap.index_empty]
  simp

theorem parseFileLoop_cons (c : Config) (code2message : Code2Message) (mydata : MyData)
    (line : GoString) (rest : List GoString) :
    parseFileLoop c code2message mydata (line :: rest) =
      (parseLine line c code2message).bind
        (fun message => parseFileLoop c code2message (aggregate mydata message) rest) := by
  rw [parseFileLoop]
  cases parseLine line c code2message <;> rfl

theorem parseFileLoop_append (c : Config) (code2message : Code2Message) (mydata : MyData)
    (xs ys : List GoString) :
    parseFileLoop c code2message mydata (xs ++ ys) =
      (parseFileLoop c code2message mydata xs).bind
        (fun m => parseFileLoop c code2message m ys) := by
  induction xs generalizing mydata with
  | nil => rfl
  | cons x rest ih =>
    rw [List.cons_append, parseFileLoop_cons, parseFileLoop_cons]
    cases parseLine x c code2message with
    | none => rfl
    | some message => exact ih _

theorem parseFileLoop_skip (c : Config) (code2message : Code2Message) (line : GoString)
    (h : parseLine line c code2message = some GoMap.empty) (mydata : MyData)
    (rest : List GoString) :
    parseFileLoop c code2message mydata (line :: rest) =
      parseFileLoop c code2message mydata rest := by
  rw [parseFileLoop_cons, h, Option.some_bind, aggregate_empty]

theorem parseFile_no_scan_error (lines : List GoString) (c : Config)
    (code2message : Code2Message) :
    parseFile lines false c code2message = parseFileLoop c code2message GoMap.empty lines := by
  unfold parseFile
  cases parseFileLoop c code2message GoMap.empty lines <;> rfl

theorem parseFile_scan_error (lines : List GoString) (c : Config)
    (code2message : Code2Message) : parseFile lines true c code2message = none := by
  unfold parseFile
  cases parseFileLoop c code2message GoMap.empty lines <;> rfl

theorem parseFile_eq_some (lines : List GoString) (scanErr : Bool) (c : Config)
    (code2message : Code2Message) (agg : MyData)
    (h : parseFile lines scanErr c code2message = some agg) :
    scanErr = false ∧ parseFileLoop c code2message GoMap.empty lines = some agg := by
  cases scanErr with
  | true =>
    rw [parseFile_scan_error] at h
    exact absurd h (by simp)
  | false =>
    rw [parseFile_no_scan_error] at h
    exact ⟨rfl, h⟩

theorem parseFile_congr (lines lines' : List GoString) (scanErr : Bool) (c c' : Config)
    (code2message : Code2Message)
    (h : parseFileLoop c code2message GoMap.empty lines =
      parseFileLoop c' code2message GoMap.empty lines') :
    parseFile lines scanErr c code2message = parseFile lines' scanErr c' code2message := by
  unfold parseFile
  rw [h]

/-- C2, as amended: for a line of at least 20 bytes on which `parseLine`
succeeds, the field names of the record are exactly the names of the
descriptors stored under the key `M ++ L`, where `M` is the code table's value
for the 4 bytes at offsets 15..18 (empty when the token is unknown) and `L` is
`string(line[19])`, the UTF-8 encoding of the code point numbered by the byte
at offset 19: that byte itself when it is below 0x80, two bytes otherwise.
A schema model that agrees on this key yields the same record. -/
theorem parseLine_field_names (line : GoString) (c : Config) (code2message : Code2Message)
    (r : Message) (b : Byte) (hlen : 20 ≤ line.length) (hb : line.get? 19 = some b)
    (hr : parseLine line c code2message = some r) :
    (∀ n, n ∈ r.keys ↔
        ∃ d ∈ c.index [] (code2message.index [] ((line.drop 15).take 4) ++ byteToString b),
          d.Name = n) ∧
      (byteToString b =
        if b.val < 128 then [b]
        else [Fin.ofNat (192 + b.val / 64), Fin.ofNat (128 + b.val % 64)]) ∧
      (∀ c' : Config,
        c'.index [] (code2message.index [] ((line.drop 15).take 4) ++ byteToString b) =
          c.index [] (code2message.index [] ((line.drop 15).take 4) ++ byteToString b) →
        parseLine line c' code2message = some r) := by
  obtain ⟨b', hb', hres⟩ := resolveSchema_of_length line c code2message hlen
  rw [hb] at hb'
  simp only [Option.some.injEq] at hb'
  subst hb'
  refine ⟨fun n => ?_, ?_, fun c' hc' => ?_⟩
  · rw [parseLine_of_resolveSchema line c code2message _ hres] at hr
    rw [parseEntries_mem_keys line GoMap.empty r _ hr n]
    simp [GoMap.keys, GoMap.empty]
  · by_cases h128 : b.val < 128
    · rw [if_pos h128]
      exact byteToString_ascii b h128
    rw [if_neg h128]
    unfold byteToString
    rw [dif_neg h128]
    have hlt := b.isLt
    have h1 : (192 + b.val / 64) % 256 = 192 + b.val / 64 := by omega
    have h2 : (128 + b.val % 64) % 256 = 128 + b.val % 64 := by omega
    simp [Fin.ofNat, Fin.ext_iff, h1, h2]
  · obtain ⟨b', hb', hres'⟩ := resolveSchema_of_length line c' code2message hlen
    rw [hb] at hb'
    simp only [Option.some.injEq] at hb'
    subst hb'
    rw [parseLine_of_resolveSchema line c' code2message _ hres', hc',
      ← parseLine_of_resolveSchema line c code2message _ hres]
    exact hr

theorem parseLine_field_names_witness :
    (∀ n, n ∈ GoMap.keys (⟨[(isin, (tradeLine.drop 49).take 12)]⟩ : Message) ↔
        ∃ d ∈ levelConfig.index []
            (emptyTable.index [] ((tradeLine.drop 15).take 4) ++ byteToString 65),
          d.Name = n) ∧
      (byteToString 65 =
        if (65 : Byte).val < 128 then [65]
        else [Fin.ofNat (192 + (65 : Byte).val / 64), Fin.ofNat (128 + (65 : Byte).val % 64)]) ∧
      (∀ c' : Config,
        c'.index [] (emptyTable.index [] ((tradeLine.drop 15).take 4) ++ byteToString 65) =
          levelConfig.index []
            (emptyTable.index [] ((tradeLine.drop 15).take 4) ++ byteToString 65) →
        parseLine tradeLine c' emptyTable =
          some ⟨[(isin, (tradeLine.drop 49).take 12)]⟩) :=
  parseLine_field_names tradeLine levelConfig emptyTable
    ⟨[(isin, (tradeLine.drop 49).take 12)]⟩ 65 (by decide) (by decide) (by decide)

/-- C2 as stated fails: with the byte 0xE9 at offset 19 and an unknown code
token, the key that `parseLine` forms is the two bytes 0xC3 0xA9, not the single
byte 0xE9. The record has the field `isin` of the schema stored under those two
bytes, while nothing is stored under the identifier followed by the single byte. -/
theorem parseLine_level_byte_counterexample :
    20 ≤ latin1Line.length ∧
      latin1Line.get? 19 = some 233 ∧
      parseLine latin1Line accentConfig emptyTable =
        some ⟨[(isin, [85, 83, 48, 51, 55, 56, 51, 51, 49, 48, 48, 53])]⟩ ∧
      ¬ (∀ r, parseLine latin1Line accentConfig emptyTable = some r →
          ∀ n, n ∈ r.keys ↔
            ∃ d ∈ accentConfig.index []
                (emptyTable.index [] ((latin1Line.drop 15).take 4) ++ [233]),
              d.Name = n) := by
  refine ⟨by decide, by decide, by decide, fun h => ?_⟩
  have h1 := (h ⟨[(isin, [85, 83, 48, 51, 55, 56, 51, 51, 49, 48, 48, 53])]⟩
    (by decide) isin).1 (by decide)
  obtain ⟨d, hd, _⟩ := h1
  have hnil : accentConfig.index []
      (emptyTable.index [] ((latin1Line.drop 15).take 4) ++ [233]) = [] := by decide
  rw [hnil] at hd
  exact List.not_mem_nil d hd

end FixedWidth

namespace FixedWidth

/-! ## Unresolved schemas and unresolved codes -/

theorem parseLine_of_no_schema (line : GoString) (c : Config) (code2message : Code2Message)
    (b : Byte) (hlen : 20 ≤ line.length) (hb : line.get? 19 = some b)
    (hkey : c.index [] (code2message.index [] ((line.drop 15).take 4) ++ byteToString b) = []) :
    parseLine line c code2message = some GoMap.empty := by
  obtain ⟨b', hb', hres⟩ := resolveSchema_of_length line c code2message hlen
  rw [hb] at hb'
  simp only [Option.some.injEq] at hb'
  subst hb'
  rw [parseLine_of_resolveSchema line c code2message _ hres, hkey]
  rfl

/-- C9, as amended: for a line of at least 20 bytes whose record-type key as
`parseLine` forms it (the resolved message identifier followed by
`string(line[19])`, which is the level byte itself only when that byte is below
0x80) is not a key of the schema model, `parseLine` returns the empty record,
and processing the line in `parseFile` leaves the aggregate unchanged. -/
theorem parseLine_unknown_schema (line : GoString) (c : Config) (code2message : Code2Message)
    (b : Byte) (hlen : 20 ≤ line.length) (hb : line.get? 19 = some b)
    (hkey : c.lookup (code2message.index [] ((line.drop 15).take 4) ++ byteToString b) = none) :
    parseLine line c code2message = some GoMap.empty ∧
      (∀ (mydata : MyData) (rest : List GoString),
        parseFileLoop c code2message mydata (line :: rest) =
          parseFileLoop c code2message mydata rest) ∧
      (∀ (xs ys : List GoString) (scanErr : Bool),
        parseFile (xs ++ line :: ys) scanErr c code2message =
          parseFile (xs ++ ys) scanErr c code2message) := by
  have hp : parseLine line c code2message = some GoMap.empty :=
    parseLine_of_no_schema line c code2message b hlen hb (index_of_lookup_none [] c _ hkey)
  refine ⟨hp, parseFileLoop_skip c code2message line hp, fun xs ys scanErr => ?_⟩
  apply parseFile_congr
  rw [parseFileLoop_append, parseFileLoop_append]
  congr 1
  funext m
  exact parseFileLoop_skip c code2message line hp m ys

theorem parseLine_unknown_schema_witness :
    parseLine latin1Line tradeConfig tradeTable = some GoMap.empty ∧
      (∀ (mydata : MyData) (rest : List GoString),
        parseFileLoop tradeConfig tradeTable mydata (latin1Line :: rest) =
          parseFileLoop tradeConfig tradeTable mydata rest) ∧
      (∀ (xs ys : List GoString) (scanErr : Bool),
        parseFile (xs ++ latin1Line :: ys) scanErr tradeConfig tradeTable =
          parseFile (xs ++ ys) scanErr tradeConfig tradeTable) :=
  parseLine_unknown_schema latin1Line tradeConfig tradeTable 233
    (by decide) (by decide) (by decide)

/-- C9 as stated fails: the line has 0xE9 at offset 19 and an unknown code
token, so the identifier followed by the level byte is the single byte 0xE9,
which is not a key of the schema model; yet `parseLine` returns a record with
the field `isin`, and `parseFile` adds it to the aggregate. -/
theorem parseLine_unknown_schema_counterexample :
    20 ≤ latin1Line.length ∧
      accentConfig.lookup
        (emptyTable.index [] ((latin1Line.drop 15).take 4) ++ (latin1Line.drop 19).take 1) =
          none ∧
      parseLine latin1Line accentConfig emptyTable ≠ some GoMap.empty ∧
      parseFile [latin1Line] false accentConfig emptyTable ≠
        parseFile [] false accentConfig emptyTable := by
  refine ⟨by decide, by decide, by decide, by decide⟩

/-- C10, as amended: for a line of at least 20 bytes whose code token is not a
key of the code table, `parseLine` resolves the schema stored under the level
tag alone (the empty identifier followed by `string(line[19])`) and decodes
the line with it, whatever that schema holds: the field names of the record
are the names of its descriptors. For every schema model that holds no
descriptors under that key, `parseLine` returns the empty record and the line
leaves the aggregate unchanged. -/
theorem parseLine_unknown_code (line : GoString) (c : Config) (code2message : Code2Message)
    (b : Byte) (hlen : 20 ≤ line.length) (hb : line.get? 19 = some b)
    (hcode : code2message.lookup ((line.drop 15).take 4) = none) :
    resolveSchema line c code2message = some (c.index [] (byteToString b)) ∧
      parseLine line c code2message =
        parseEntries line GoMap.empty (c.index [] (byteToString b)) ∧
      (∀ (r : Message) (n : GoString), parseLine line c code2message = some r →
        (n ∈ r.keys ↔ ∃ d ∈ c.index [] (byteToString b), d.Name = n)) ∧
      (c.index [] (byteToString b) = [] →
        parseLine line c code2message = some GoMap.empty ∧
          (∀ (mydata : MyData) (rest : List GoString),
            parseFileLoop c code2message mydata (line :: rest) =
              parseFileLoop c code2message mydata rest) ∧
          (∀ (xs ys : List GoString) (scanErr : Bool),
            parseFile (xs ++ line :: ys) scanErr c code2message =
              parseFile (xs ++ ys) scanErr c code2message)) := by
  have hid : code2message.index [] ((line.drop 15).take 4) = [] :=
    index_of_lookup_none [] code2message _ hcode
  obtain ⟨b', hb', hres⟩ := resolveSchema_of_length line c code2message hlen
  rw [hb] at hb'
  simp only [Option.some.injEq] at hb'
  subst hb'
  rw [hid, List.nil_append] at hres
  have hpl := parseLine_of_resolveSchema line c code2message _ hres
  refine ⟨hres, hpl, fun r n hr => ?_, fun hnil => ?_⟩
  · rw [hpl] at hr
    rw [parseEntries_mem_keys line GoMap.empty r _ hr n]
    simp [GoMap.keys, GoMap.empty]
  · have hp : parseLine line c code2message = some GoMap.empty := by
      rw [hpl, hnil]
      rfl
    refine ⟨hp, parseFileLoop_skip c code2message line hp, fun xs ys scanErr => ?_⟩
    apply parseFile_congr
    rw [parseFileLoop_append, parseFileLoop_append]
    congr 1
    funext m
    exact parseFileLoop_skip c code2message line hp m ys

theorem parseLine_unknown_code_witness :
    (resolveSchema tradeLine levelConfig emptyTable =
        some (levelConfig.index [] (byteToString 65)) ∧
      parseLine tradeLine levelConfig emptyTable =
        parseEntries tradeLine GoMap.empty (levelConfig.index [] (byteToString 65)) ∧
      (∀ (r : Message) (n : GoString), parseLine tradeLine levelConfig emptyTable = some r →
        (n ∈ r.keys ↔ ∃ d ∈ levelConfig.index [] (byteToString 65), d.Name = n)) ∧
      (levelConfig.index [] (byteToString 65) = [] →
        parseLine tradeLine levelConfig emptyTable = some GoMap.empty ∧
          (∀ (mydata : MyData) (rest : List GoString),
            parseFileLoop levelConfig emptyTable mydata (tradeLine :: rest) =
              parseFileLoop levelConfig emptyTable mydata rest) ∧
          (∀ (xs ys : List GoString) (scanErr : Bool),
            parseFile (xs ++ tradeLine :: ys) scanErr levelConfig emptyTable =
              parseFile (xs ++ ys) scanErr levelConfig emptyTable))) ∧
      levelConfig.index [] (byteToString 65) = [⟨isin, 12, 50, 61⟩] ∧
      tradeConfig.index [] (byteToString 65) = [] ∧
      parseLine tradeLine tradeConfig emptyTable = some GoMap.empty :=
  ⟨parseLine_unknown_code tradeLine levelConfig emptyTable 65
      (by decide) (by decide) (by decide),
    by decide, by decide,
    ((parseLine_unknown_code tradeLine tradeConfig emptyTable 65
      (by decide) (by decide) (by decide)).2.2.2 (by decide)).1⟩

/-- C10 as stated fails: the code token `1234` is not a key of the empty code
table, yet the schema model stores descriptors under the key `A`, which is the
empty identifier followed by the level tag of the line; `parseLine` returns a
record with the field `isin`, and `parseFile` puts it into the aggregate. -/
theorem parseLine_unknown_code_counterexample :
    20 ≤ tradeLine.length ∧
      emptyTable.lookup ((tradeLine.drop 15).take 4) = none ∧
      parseLine tradeLine levelConfig emptyTable =
        some ⟨[(isin, [85, 83, 48, 51, 55, 56, 51, 51, 49, 48, 48, 53])]⟩ ∧
      parseLine tradeLine levelConfig emptyTable ≠ some GoMap.empty ∧
      parseFile [tradeLine] false levelConfig emptyTable =
        some ⟨[([85, 83, 48, 51, 55, 56, 51, 51, 49, 48, 48, 53],
          [⟨[(isin, [85, 83, 48, 51, 55, 56, 51, 51, 49, 48, 48, 53])]⟩])]⟩ := by
  refine ⟨by decide, by decide, by decide, by decide, by decide⟩

end FixedWidth

namespace FixedWidth

/-! ## The aggregation loop -/

theorem parseFileLoop_of_all (c : Config) (code2message : Code2Message) (mydata : MyData)
    (lines : List GoString)
    (hall : ∀ l ∈ lines, (parseLine l c code2message).isSome = true) :
    parseFileLoop c code2message mydata lines =
      some ((lines.filterMap (fun l => parseLine l c code2message)).foldl aggregate mydata) := by
  induction lines generalizing mydata with
  | nil => rfl
  | cons l rest ih =>
    obtain ⟨message, hm⟩ := Option.isSome_iff_exists.1 (hall l (List.mem_cons_self l rest))
    rw [parseFileLoop_cons, hm, Option.some_bind,
      ih _ (fun x hx => hall x (List.mem_cons_of_mem l hx)), List.filterMap_cons, hm]
    rfl

theorem parseFileLoop_of_panic (c : Config) (code2message : Code2Message) (mydata : MyData)
    (lines : List GoString) (l : GoString) (hl : l ∈ lines)
    (hp : parseLine l c code2message = none) :
    parseFileLoop c code2message mydata lines = none := by
  induction lines generalizing mydata with
  | nil => exact absurd hl (List.not_mem_nil l)
  | cons x rest ih =>
    rw [parseFileLoop_cons]
    rcases List.mem_cons.1 hl with hx | hr
    · subst hx
      rw [hp]
      rfl
    · cases parseLine x c code2message with
      | none => rfl
      | some message => exact ih _ hr

theorem parseFileLoop_all_of_some (c : Config) (code2message : Code2Message)
    (mydata agg : MyData) (lines : List GoString)
    (h : parseFileLoop c code2message mydata lines = some agg) :
    ∀ l ∈ lines, (parseLine l c code2message).isSome = true := by
  intro l hl
  cases hp : parseLine l c code2message with
  | some message => rfl
  | none =>
    rw [parseFileLoop_of_panic c code2message mydata lines l hl hp] at h
    exact absurd h (by simp)

theorem aggregate_index (mydata : MyData) (message : Message) (k : GoString) :
    (aggregate mydata message).index [] k =
      mydata.index [] k ++
        (if message.index [] isin = k ∧ k ≠ [] then [message] else []) := by
  unfold aggregate
  by_cases he : message.index [] isin = []
  · simp only [he, ne_eq, not_true_eq_false, if_false]
    by_cases hk : k = []
    · simp [hk]
    · have : ¬ ([] = k) := fun h => hk h.symm
      simp [this]
  · simp only [ne_eq, he, not_false_eq_true, if_true]
    rw [GoMap.index_set]
    by_cases hk : message.index [] isin = k
    · subst hk
      simp [he]
    · simp [hk]

theorem aggregate_lookup_none (mydata : MyData) (message : Message) (k : GoString) :
    (aggregate mydata message).lookup k = none ↔
      (mydata.lookup k = none ∧ (k = [] ∨ message.index [] isin ≠ k)) := by
  unfold aggregate
  by_cases he : message.index [] isin = []
  · simp only [he, ne_eq, not_true_eq_false, if_false]
    by_cases hk : k = []
    · simp [hk]
    · have : ¬ ([] = k) := fun h => hk h.symm
      simp [this]
  · simp only [ne_eq, he, not_false_eq_true, if_true]
    rw [GoMap.lookup_set]
    by_cases hk : message.index [] isin = k
    · subst hk
      simp [he]
    · simp [hk]

theorem foldl_aggregate_index (mydata : MyData) (rs : List Message) (k : GoString) :
    (rs.foldl aggregate mydata).index [] k =
      mydata.index [] k ++
        rs.filter (fun r => decide (r.index [] isin = k ∧ k ≠ [])) := by
  induction rs generalizing mydata with
  | nil => simp
  | cons r rest ih =>
    rw [List.foldl_cons, ih, aggregate_index, List.filter_cons]
    by_cases h : r.index [] isin = k ∧ k ≠ []
    · simp [h]
    · simp [h]

theorem foldl_aggregate_lookup_none (mydata : MyData) (rs : List Message) (k : GoString) :
    (rs.foldl aggregate mydata).lookup k = none ↔
      (mydata.lookup k = none ∧ (k = [] ∨ ∀ r ∈ rs, r.index [] isin ≠ k)) := by
  induction rs generalizing mydata with
  | nil => simp
  | cons r rest ih =>
    rw [List.foldl_cons, ih, aggregate_lookup_none]
    by_cases hk : k = []
    · simp [hk]
    · simp [hk]
      tauto

theorem index_of_lookup_some {V : Type} (zero : V) (m : GoMap V) (k : GoString) (v : V)
    (h : m.lookup k = some v) : m.index zero k = v := by
  unfold GoMap.index
  rw [h]
  rfl

/-- C3, as amended: when `parseLine` succeeds on every line that the scanner
delivers and the scan ends without error, `parseFile` returns an aggregate in
which, for every non-empty key `k`, the sequence stored under `k` is the
list, in file order, of the decoded records of the lines whose `isin` value is
`k`, and `k` is a key of the aggregate exactly when that list is not empty.
Every aggregate that `parseFile` returns has this form. When the scan ends
with an error, `parseFile` returns no aggregate. -/
theorem parseFile_groups_in_file_order (lines : List GoString) (c : Config)
    (code2message : Code2Message)
    (hall : ∀ l ∈ lines, (parseLine l c code2message).isSome = true) :
    (∃ agg, parseFile lines false c code2message = some agg ∧
      ∀ k : GoString, k ≠ [] →
        agg.index [] k =
            (lines.filterMap (fun l => parseLine l c code2message)).filter
              (fun r => decide (r.index [] isin = k)) ∧
          (k ∈ agg.keys ↔
            (lines.filterMap (fun l => parseLine l c code2message)).filter
              (fun r => decide (r.index [] isin = k)) ≠ [])) ∧
      (∀ (scanErr : Bool) (agg : MyData),
        parseFile lines scanErr c code2message = some agg →
          scanErr = false ∧
          ∀ k : GoString, k ≠ [] →
            agg.index [] k =
                (lines.filterMap (fun l => parseLine l c code2message)).filter
                  (fun r => decide (r.index [] isin = k)) ∧
              (k ∈ agg.keys ↔
                (lines.filterMap (fun l => parseLine l c code2message)).filter
                  (fun r => decide (r.index [] isin = k)) ≠ [])) ∧
      parseFile lines true c code2message = none := by
  have hloop := parseFileLoop_of_all c code2message GoMap.empty lines hall
  have hprop : ∀ k : GoString, k ≠ [] →
      ((lines.filterMap (fun l => parseLine l c code2message)).foldl aggregate
          GoMap.empty).index [] k =
          (lines.filterMap (fun l => parseLine l c code2message)).filter
            (fun r => decide (r.index [] isin = k)) ∧
        (k ∈ ((lines.filterMap (fun l => parseLine l c code2message)).foldl aggregate
            GoMap.empty).keys ↔
          (lines.filterMap (fun l => parseLine l c code2message)).filter
            (fun r => decide (r.index [] isin = k)) ≠ []) := by
    intro k hk
    constructor
    · rw [foldl_aggregate_index, GoMap.index_empty, List.nil_append]
      simp [hk]
    · rw [GoMap.mem_keys_iff, ← Option.ne_none_iff_isSome, ne_eq, ne_eq,
        foldl_aggregate_lookup_none, List.filter_eq_nil_iff]
      simp [hk, GoMap.lookup_empty]
  refine ⟨⟨_, ?_, hprop⟩, fun scanErr agg h => ?_, parseFile_scan_error lines c code2message⟩
  · rw [parseFile_no_scan_error]
    exact hloop
  · obtain ⟨hs, hagg⟩ := parseFile_eq_some lines scanErr c code2message agg h
    rw [hloop, Option.some.injEq] at hagg
    subst hagg
    exact ⟨hs, hprop⟩

theorem parseFile_groups_in_file_order_witness :
    (∃ agg, parseFile [tradeLine, latin1Line, tradeLine] false tradeConfig tradeTable =
        some agg ∧
      ∀ k : GoString, k ≠ [] →
        agg.index [] k =
            ([tradeLine, latin1Line, tradeLine].filterMap
              (fun l => parseLine l tradeConfig tradeTable)).filter
              (fun r => decide (r.index [] isin = k)) ∧
          (k ∈ agg.keys ↔
            ([tradeLine, latin1Line, tradeLine].filterMap
              (fun l => parseLine l tradeConfig tradeTable)).filter
              (fun r => decide (r.index [] isin = k)) ≠ [])) ∧
      (∀ (scanErr : Bool) (agg : MyData),
        parseFile [tradeLine, latin1Line, tradeLine] scanErr tradeConfig tradeTable =
            some agg →
          scanErr = false ∧
          ∀ k : GoString, k ≠ [] →
            agg.index [] k =
                ([tradeLine, latin1Line, tradeLine].filterMap
                  (fun l => parseLine l tradeConfig tradeTable)).filter
                  (fun r => decide (r.index [] isin = k)) ∧
              (k ∈ agg.keys ↔
                ([tradeLine, latin1Line, tradeLine].filterMap
                  (fun l => parseLine l tradeConfig tradeTable)).filter
                  (fun r => decide (r.index [] isin = k)) ≠ [])) ∧
      parseFile [tradeLine, latin1Line, tradeLine] true tradeConfig tradeTable = none :=
  parseFile_groups_in_file_order [tradeLine, latin1Line, tradeLine] tradeConfig tradeTable
    (by decide)

/-- C3 as stated fails: `parseLine` succeeds on both lines and both decode to
a record whose `isin` value is `US0378331005`, so the claim puts the two
records under that key of the result; but the scan ends with an error (the
scanner met a read error or an over-long line after them), `log.Fatal` ends
the process, and `parseFile` returns no aggregate. -/
theorem parseFile_scan_error_counterexample :
    (∀ l ∈ [tradeLine, tradeLine], (parseLine l tradeConfig tradeTable).isSome = true) ∧
      ([tradeLine, tradeLine].filterMap (fun l => parseLine l tradeConfig tradeTable)).filter
          (fun r => decide (r.index [] isin = [85, 83, 48, 51, 55, 56, 51, 51, 49, 48, 48, 53])) =
        [tradeRecord, tradeRecord] ∧
      parseFile [tradeLine, tradeLine] true tradeConfig tradeTable = none ∧
      ¬ (∃ agg, parseFile [tradeLine, tradeLine] true tradeConfig tradeTable = some agg ∧
          agg.index [] [85, 83, 48, 51, 55, 56, 51, 51, 49, 48, 48, 53] =
            [tradeRecord, tradeRecord]) := by
  refine ⟨by decide, by decide, by decide, ?_⟩
  rintro ⟨agg, hagg, _⟩
  have hnone : parseFile [tradeLine, tradeLine] true tradeConfig tradeTable = none := by decide
  rw [hnone] at hagg
  exact absurd hagg (by simp)

/-- C4, as amended: when the list of lines contains a line shorter than a byte
range that decoding requires of it (fewer than 20 bytes, or fewer bytes than
the end offset of a descriptor of its resolved schema), `parseLine` panics on
that line and `parseFile` does not recover: the run aborts and yields no
aggregate. -/
theorem parseFile_aborts_on_short_line (lines : List GoString) (c : Config)
    (code2message : Code2Message) (l : GoString) (hl : l ∈ lines)
    (hshort : l.length < 20 ∨
      ∃ schema d, resolveSchema l c code2message = some schema ∧ d ∈ schema ∧
        (l.length : Int) < d.End.val) :
    parseLine l c code2message = none ∧
      ∀ scanErr : Bool, parseFile lines scanErr c code2message = none := by
  have hp : parseLine l c code2message = none := by
    rcases hshort with h20 | ⟨schema, d, hres, hd, hend⟩
    · exact parseLine_short l c code2message h20
    · rw [parseLine_of_resolveSchema l c code2message schema hres]
      cases hpe : parseEntries l GoMap.empty schema with
      | none => rfl
      | some r =>
        have hsome := (parseEntries_isSome l GoMap.empty schema).1 (by rw [hpe]; rfl) d hd
        have hnone : fieldValue l d = none :=
          (sliceStr_eq_none_iff l _ _).2 (Or.inr (Or.inr hend))
        rw [hnone] at hsome
        exact absurd hsome (by simp)
  refine ⟨hp, fun scanErr => ?_⟩
  unfold parseFile
  rw [parseFileLoop_of_panic c code2message GoMap.empty lines l hl hp]

theorem parseFile_aborts_on_short_line_witness :
    parseLine shortLine tradeConfig tradeTable = none ∧
      ∀ scanErr : Bool,
        parseFile [tradeLine, shortLine, tradeLine] scanErr tradeConfig tradeTable = none :=
  parseFile_aborts_on_short_line [tradeLine, shortLine, tradeLine] tradeConfig tradeTable
    shortLine (by decide) (Or.inl (by decide))

/-- C4 as stated fails: a file whose second line has 10 bytes yields no
aggregate at all, while the same file without the short line yields the
aggregate of its two records. -/
theorem parseFile_short_line_counterexample :
    shortLine.length < 20 ∧
      parseFile [tradeLine, shortLine, tradeLine] false tradeConfig tradeTable = none ∧
      parseFile ([tradeLine, shortLine, tradeLine].filter (fun l => decide (20 ≤ l.length)))
        false tradeConfig tradeTable = some tradeAggregate ∧
      parseFile [tradeLine, shortLine, tradeLine] false tradeConfig tradeTable ≠
        parseFile ([tradeLine, shortLine, tradeLine].filter (fun l => decide (20 ≤ l.length)))
          false tradeConfig tradeTable := by
  refine ⟨by decide, by decide, by decide, by decide⟩

/-- C5: in an aggregate that `parseFile` returns, the empty string is not a
key, and every record of every group has an `isin` field that is present and
not empty. -/
theorem parseFile_no_empty_isin (lines : List GoString) (c : Config)
    (code2message : Code2Message) (scanErr : Bool) (agg : MyData)
    (h : parseFile lines scanErr c code2message = some agg) :
    agg.lookup [] = none ∧ [] ∉ agg.keys ∧
      ∀ (k : GoString) (rs : List Message), agg.lookup k = some rs →
        ∀ r ∈ rs, r.lookup isin ≠ none ∧ r.lookup isin ≠ some [] := by
  replace h := (parseFile_eq_some lines scanErr c code2message agg h).2
  have hall := parseFileLoop_all_of_some c code2message GoMap.empty agg lines h
  have heq := parseFileLoop_of_all c code2message GoMap.empty lines hall
  rw [h, Option.some.injEq] at heq
  have hnone : agg.lookup [] = none := by
    rw [heq, foldl_aggregate_lookup_none]
    exact ⟨GoMap.lookup_empty [], Or.inl rfl⟩
  refine ⟨hnone, ?_, fun k rs hk r hr => ?_⟩
  · rw [GoMap.mem_keys_iff, hnone]
    simp
  · have hidx := index_of_lookup_some [] agg k rs hk
    rw [heq, foldl_aggregate_index, GoMap.index_empty, List.nil_append] at hidx
    rw [← hidx, List.mem_filter] at hr
    have hr2 := of_decide_eq_true hr.2
    have hne : r.index [] isin ≠ [] := by
      rw [hr2.1]
      exact hr2.2
    unfold GoMap.index at hne
    constructor
    · intro hn
      rw [hn] at hne
      exact hne rfl
    · intro hs
      rw [hs] at hne
      exact hne rfl

theorem parseFile_no_empty_isin_witness :
    tradeAggregate.lookup [] = none ∧ [] ∉ tradeAggregate.keys ∧
      ∀ (k : GoString) (rs : List Message), tradeAggregate.lookup k = some rs →
        ∀ r ∈ rs, r.lookup isin ≠ none ∧ r.lookup isin ≠ some [] :=
  parseFile_no_empty_isin [tradeLine, latin1Line, tradeLine] tradeConfig tradeTable
    false tradeAggregate (by decide)

end FixedWidth

namespace FixedWidth

/-! ## The end-to-end scenario and the grouping key -/

theorem fieldValue_isin_50_61 (line : GoString) (len : GoInt) (hlen : 70 ≤ line.length) :
    fieldValue line ⟨isin, len, 50, 61⟩ = some ((line.drop 49).take 12) := by
  have h := fieldValue_of_range line ⟨isin, len, 50, 61⟩
    ⟨by show (1 : Int) ≤ (50 : GoInt).val; decide,
     by show wrap64 ((50 : GoInt).val - 1) ≤ (61 : GoInt).val; decide,
     by show (61 : GoInt).val ≤ (line.length : Int)
        have h61 : (61 : GoInt).val = 61 := by decide
        omega⟩
  exact h

theorem fieldValue_price_62_70 (line : GoString) (len : GoInt) (hlen : 70 ≤ line.length) :
    fieldValue line ⟨price, len, 62, 70⟩ = some ((line.drop 61).take 9) := by
  have h := fieldValue_of_range line ⟨price, len, 62, 70⟩
    ⟨by show (1 : Int) ≤ (62 : GoInt).val; decide,
     by show wrap64 ((62 : GoInt).val - 1) ≤ (70 : GoInt).val; decide,
     by show (70 : GoInt).val ≤ (line.length : Int)
        have h70 : (70 : GoInt).val = 70 := by decide
        omega⟩
  exact h

/-- C11, as amended: with a code table mapping `1234` to `TRADE` and a schema
model whose key `TRADEA` holds the descriptors `isin` 50..61 and `price`
62..70, every line of at least 70 bytes with `1234` at offsets 15..18 and `A`
at offset 19 decodes to a record with exactly the fields `isin` and `price`;
the `isin` value is the 12 bytes at 0-based offsets 49..60 and the `price`
value is the 9 bytes at 0-based offsets 61..69. -/
theorem parseLine_trade_scenario (line : GoString) (c : Config) (code2message : Code2Message)
    (len1 len2 : GoInt)
    (htab : code2message.lookup [49, 50, 51, 52] = some [84, 82, 65, 68, 69])
    (hcfg : c.lookup [84, 82, 65, 68, 69, 65] =
      some [⟨isin, len1, 50, 61⟩, ⟨price, len2, 62, 70⟩])
    (hlen : 70 ≤ line.length) (hcode : (line.drop 15).take 4 = [49, 50, 51, 52])
    (hlevel : line.get? 19 = some 65) :
    ∃ r, parseLine line c code2message = some r ∧
      (∀ n, n ∈ r.keys ↔ (n = isin ∨ n = price)) ∧
      r.lookup isin = some ((line.drop 49).take 12) ∧
      ((line.drop 49).take 12).length = 12 ∧
      r.lookup price = some ((line.drop 61).take 9) ∧
      ((line.drop 61).take 9).length = 9 := by
  obtain ⟨b, hb, hres⟩ := resolveSchema_of_length line c code2message (by omega)
  rw [hlevel] at hb
  simp only [Option.some.injEq] at hb
  subst hb
  rw [hcode, index_of_lookup_some [] code2message _ _ htab] at hres
  have hkey : ([84, 82, 65, 68, 69] : GoString) ++ byteToString 65 = [84, 82, 65, 68, 69, 65] := by
    decide
  rw [hkey, index_of_lookup_some [] c _ _ hcfg] at hres
  have hpl := parseLine_of_resolveSchema line c code2message _ hres
  have hpe : parseEntries line GoMap.empty [⟨isin, len1, 50, 61⟩, ⟨price, len2, 62, 70⟩] =
      some ((GoMap.empty.set isin ((line.drop 49).take 12)).set price
        ((line.drop 61).take 9)) := by
    rw [parseEntries, fieldValue_isin_50_61 line len1 hlen]
    simp only []
    rw [parseEntries, fieldValue_price_62_70 line len2 hlen]
    rfl
  rw [hpe] at hpl
  have hne : ¬ price = isin := by decide
  refine ⟨_, hpl, fun n => ?_, ?_, ?_, ?_, ?_⟩
  · rw [parseEntries_mem_keys line GoMap.empty _ _ hpe n]
    simp [GoMap.keys, GoMap.empty, eq_comm]
  · rw [GoMap.lookup_set, if_neg hne, GoMap.lookup_set, if_pos rfl]
  · rw [List.length_take, List.length_drop]
    omega
  · rw [GoMap.lookup_set, if_pos rfl]
  · rw [List.length_take, List.length_drop]
    omega

theorem parseLine_trade_scenario_witness :
    ∃ r, parseLine tradeLine scenarioConfig tradeTable = some r ∧
      (∀ n, n ∈ r.keys ↔ (n = isin ∨ n = price)) ∧
      r.lookup isin = some ((tradeLine.drop 49).take 12) ∧
      ((tradeLine.drop 49).take 12).length = 12 ∧
      r.lookup price = some ((tradeLine.drop 61).take 9) ∧
      ((tradeLine.drop 61).take 9).length = 9 :=
  parseLine_trade_scenario tradeLine scenarioConfig tradeTable 12 9
    (by decide) (by decide) (by decide) (by decide) (by decide)

/-- C11 as stated fails: on the 70-byte line `tradeLine` the scenario decodes
`isin` to the 12 bytes `US0378331005`, not to a value of 13 characters. -/
theorem parseLine_trade_scenario_counterexample :
    70 ≤ tradeLine.length ∧
      (tradeLine.drop 15).take 4 = [49, 50, 51, 52] ∧
      tradeLine.get? 19 = some 65 ∧
      parseLine tradeLine scenarioConfig tradeTable =
        some ⟨[(isin, [85, 83, 48, 51, 55, 56, 51, 51, 49, 48, 48, 53]),
          (price, [48, 48, 48, 49, 50, 51, 46, 52, 53])]⟩ ∧
      ¬ (∃ r, parseLine tradeLine scenarioConfig tradeTable = some r ∧
          ∃ v, r.lookup isin = some v ∧ v.length = 13) := by
  refine ⟨by decide, by decide, by decide, by decide, ?_⟩
  rintro ⟨r, hr, v, hv, h13⟩
  have hp : parseLine tradeLine scenarioConfig tradeTable =
      some ⟨[(isin, [85, 83, 48, 51, 55, 56, 51, 51, 49, 48, 48, 53]),
        (price, [48, 48, 48, 49, 50, 51, 46, 52, 53])]⟩ := by decide
  rw [hp, Option.some.injEq] at hr
  subst hr
  have hl : GoMap.lookup (⟨[(isin, [85, 83, 48, 51, 55, 56, 51, 51, 49, 48, 48, 53]),
      (price, [48, 48, 48, 49, 50, 51, 46, 52, 53])]⟩ : Message) isin =
      some [85, 83, 48, 51, 55, 56, 51, 51, 49, 48, 48, 53] := by decide
  rw [hl, Option.some.injEq] at hv
  subst hv
  exact absurd h13 (by decide)

/-- C12: in an aggregate that `parseFile` returns, every record of the group
stored under a key `k` has the `isin` field `k`; so a record occurs under the
key equal to its own `isin` value and under no other key. -/
theorem parseFile_groups_by_isin (lines : List GoString) (c : Config)
    (code2message : Code2Message) (scanErr : Bool) (agg : MyData)
    (h : parseFile lines scanErr c code2message = some agg) :
    (∀ (k : GoString) (rs : List Message), agg.lookup k = some rs →
        ∀ r ∈ rs, r.lookup isin = some k ∧ r.index [] isin = k) ∧
      (∀ (k k' : GoString) (rs rs' : List Message) (r : Message),
        agg.lookup k = some rs → agg.lookup k' = some rs' → r ∈ rs → r ∈ rs' → k = k') := by
  replace h := (parseFile_eq_some lines scanErr c code2message agg h).2
  have hall := parseFileLoop_all_of_some c code2message GoMap.empty agg lines h
  have heq := parseFileLoop_of_all c code2message GoMap.empty lines hall
  rw [h, Option.some.injEq] at heq
  have key : ∀ (k : GoString) (rs : List Message), agg.lookup k = some rs →
      ∀ r ∈ rs, r.index [] isin = k ∧ k ≠ [] := by
    intro k rs hk r hr
    have hidx := index_of_lookup_some [] agg k rs hk
    rw [heq, foldl_aggregate_index, GoMap.index_empty, List.nil_append] at hidx
    rw [← hidx, List.mem_filter] at hr
    exact of_decide_eq_true hr.2
  refine ⟨fun k rs hk r hr => ?_, fun k k' rs rs' r hk hk' hr hr' => ?_⟩
  · obtain ⟨hi, hne⟩ := key k rs hk r hr
    refine ⟨?_, hi⟩
    unfold GoMap.index at hi
    cases hl : r.lookup isin with
    | none =>
      rw [hl] at hi
      exact absurd hi.symm hne
    | some v =>
      rw [hl] at hi
      exact congrArg some hi
  · rw [← (key k rs hk r hr).1, ← (key k' rs' hk' r hr').1]

theorem parseFile_groups_by_isin_witness :
    (∀ (k : GoString) (rs : List Message), tradeAggregate.lookup k = some rs →
        ∀ r ∈ rs, r.lookup isin = some k ∧ r.index [] isin = k) ∧
      (∀ (k k' : GoString) (rs rs' : List Message) (r : Message),
        tradeAggregate.lookup k = some rs → tradeAggregate.lookup k' = some rs' →
          r ∈ rs → r ∈ rs' → k = k') :=
  parseFile_groups_by_isin [tradeLine, latin1Line, tradeLine] tradeConfig tradeTable
    false tradeAggregate (by decide)

end FixedWidth

namespace FixedWidth

/-! ## Offsets and declared lengths -/

theorem getLast?_filter_of_mem (schema : List SchemaValue) (n : GoString)
    (h : ∃ d ∈ schema, d.Name = n) :
    ∃ d, (schema.filter (fun e => decide (e.Name = n))).getLast? = some d := by
  obtain ⟨d, hd, hn⟩ := h
  cases hl : (schema.filter (fun e => decide (e.Name = n))).getLast? with
  | some e => exact ⟨e, rfl⟩
  | none =>
    rw [List.getLast?_eq_none_iff, List.filter_eq_nil_iff] at hl
    exact absurd (by simpa using hn) (hl d hd)

/-- C13: when `parseLine` succeeds on a line, every field name `n` of the
record has a last descriptor named `n` in the resolved schema, and the value
stored under `n` has `end - start + 1` bytes for the offsets of that
descriptor: the 1-based end offset is inclusive. The hypothesis `hmax` says
that the line is shorter than the largest `int`, as every Go string in memory
is; the last conjunct gives the same length in the wrapping arithmetic of
`int`. -/
theorem parseLine_value_length (line : GoString) (c : Config) (code2message : Code2Message)
    (schema : List SchemaValue) (r : Message) (n : GoString)
    (hmax : (line.length : Int) < maxInt)
    (hres : resolveSchema line c code2message = some schema)
    (hr : parseLine line c code2message = some r)
    (hn : n ∈ r.keys) :
    ∃ d v, (schema.filter (fun e => decide (e.Name = n))).getLast? = some d ∧
      r.lookup n = some v ∧
      (v.length : Int) = d.End.val - d.Start.val + 1 ∧
      (v.length : Int) = wrap64 (d.End.val - d.Start.val + 1) := by
  rw [parseLine_of_resolveSchema line c code2message schema hres] at hr
  have hex : ∃ d ∈ schema, d.Name = n := by
    have := (parseEntries_mem_keys line GoMap.empty r schema hr n).1 hn
    rcases this with h | h
    · exact absurd h (by simp [GoMap.keys, GoMap.empty])
    · exact h
  obtain ⟨d, hd⟩ := getLast?_filter_of_mem schema n hex
  have hmem : d ∈ schema := (List.mem_filter.1 (List.mem_of_getLast?_eq_some hd)).1
  have hsome := (parseEntries_isSome line GoMap.empty schema).1 (by rw [hr]; rfl) d hmem
  obtain ⟨v, hv⟩ := Option.isSome_iff_exists.1 hsome
  have hlk := parseEntries_lookup line GoMap.empty r schema hr n
  rw [hd, GoMap.lookup_empty] at hlk
  simp only [Option.some_bind, Option.or_none] at hlk
  rw [hv] at hlk
  obtain ⟨h0, h1, h2, hveq⟩ := sliceStr_eq_some line _ _ v hv
  have hs := d.Start.inRange
  have he := d.End.inRange
  unfold minInt maxInt at hs he
  unfold maxInt at hmax
  have hlen : (v.length : Int) = d.End.val - wrap64 (d.Start.val - 1) := by
    rw [hveq, List.length_take, List.length_drop]
    omega
  refine ⟨d, v, hd, hlk, ?_, ?_⟩
  · rw [hlen]
    unfold wrap64 at h0 h1 ⊢
    omega
  · rw [hlen]
    unfold wrap64 at h0 h1 ⊢
    omega

theorem parseLine_value_length_witness :
    ∃ d v, (tradeSchema.filter (fun e => decide (e.Name = isin))).getLast? = some d ∧
      tradeRecord.lookup isin = some v ∧
      (v.length : Int) = d.End.val - d.Start.val + 1 ∧
      (v.length : Int) = wrap64 (d.End.val - d.Start.val + 1) :=
  parseLine_value_length tradeLine tradeConfig tradeTable tradeSchema tradeRecord isin
    (by decide) (by decide) (by decide) (by decide)

theorem fieldValue_congr (line : GoString) (d d' : SchemaValue)
    (h : (d.Name, d.Start, d.End) = (d'.Name, d'.Start, d'.End)) :
    fieldValue line d = fieldValue line d' := by
  simp only [Prod.mk.injEq] at h
  unfold fieldValue
  rw [h.2.1, h.2.2]

theorem parseEntries_congr (line : GoString) (message : Message)
    (schema schema' : List SchemaValue)
    (h : schema.map (fun d => (d.Name, d.Start, d.End)) =
      schema'.map (fun d => (d.Name, d.Start, d.End))) :
    parseEntries line message schema = parseEntries line message schema' := by
  induction schema generalizing schema' message with
  | nil =>
    cases schema' with
    | nil => rfl
    | cons d' rest' => exact absurd h (by simp)
  | cons d rest ih =>
    cases schema' with
    | nil => exact absurd h (by simp)
    | cons d' rest' =>
      rw [List.map_cons, List.map_cons, List.cons.injEq] at h
      have hname : d.Name = d'.Name := by
        have := h.1
        simp only [Prod.mk.injEq] at this
        exact this.1
      rw [parseEntries, parseEntries, fieldValue_congr line d d' h.1, hname]
      cases fieldValue line d' with
      | none => rfl
      | some v => exact ih _ rest' h.2

theorem index_map_congr (l l' : List (GoString × List SchemaValue))
    (h : l.map (fun p => (p.1, p.2.map (fun d => (d.Name, d.Start, d.End)))) =
      l'.map (fun p => (p.1, p.2.map (fun d => (d.Name, d.Start, d.End)))))
    (k : GoString) :
    ((GoMap.lookupList k l).getD []).map (fun d => (d.Name, d.Start, d.End)) =
      ((GoMap.lookupList k l').getD []).map (fun d => (d.Name, d.Start, d.End)) := by
  induction l generalizing l' with
  | nil =>
    cases l' with
    | nil => rfl
    | cons p' rest' => exact absurd h (by simp)
  | cons p rest ih =>
    cases l' with
    | nil => exact absurd h (by simp)
    | cons p' rest' =>
      obtain ⟨k0, v0⟩ := p
      obtain ⟨k1, v1⟩ := p'
      rw [List.map_cons, List.map_cons, List.cons.injEq] at h
      obtain ⟨hp, hrest⟩ := h
      simp only [Prod.mk.injEq] at hp
      obtain ⟨hk, hv⟩ := hp
      subst hk
      unfold GoMap.lookupList
      by_cases hkk : k0 = k
      · rw [if_pos hkk, if_pos hkk]
        exact hv
      · rw [if_neg hkk, if_neg hkk]
        exact ih rest' hrest

theorem parseLine_congr_length (line : GoString) (c c' : Config) (code2message : Code2Message)
    (h : c.entries.map (fun p => (p.1, p.2.map (fun d => (d.Name, d.Start, d.End)))) =
      c'.entries.map (fun p => (p.1, p.2.map (fun d => (d.Name, d.Start, d.End))))) :
    parseLine line c code2message = parseLine line c' code2message := by
  by_cases hlen : 20 ≤ line.length
  · obtain ⟨b, hb, hres⟩ := resolveSchema_of_length line c code2message hlen
    obtain ⟨b', hb', hres'⟩ := resolveSchema_of_length line c' code2message hlen
    rw [hb] at hb'
    simp only [Option.some.injEq] at hb'
    subst hb'
    rw [parseLine_of_resolveSchema line c code2message _ hres,
      parseLine_of_resolveSchema line c' code2message _ hres']
    exact parseEntries_congr line GoMap.empty _ _ (index_map_congr c.entries c'.entries h _)
  · rw [parseLine_short line c code2message (by omega),
      parseLine_short line c' code2message (by omega)]

/-- C14: the declared length of a descriptor never influences decoding: for two
schema models that hold, key by key, the same descriptors up to their `Length`
values, `parseLine` fails on both or returns the same record on both, and
`parseFile` returns the same result on every list of lines, whatever the
scan reports. -/
theorem parseLine_ignores_length (c c' : Config) (code2message : Code2Message)
    (h : c.entries.map (fun p => (p.1, p.2.map (fun d => (d.Name, d.Start, d.End)))) =
      c'.entries.map (fun p => (p.1, p.2.map (fun d => (d.Name, d.Start, d.End))))) :
    (∀ line : GoString, parseLine line c code2message = parseLine line c' code2message) ∧
      (∀ (lines : List GoString) (scanErr : Bool),
        parseFile lines scanErr c code2message = parseFile lines scanErr c' code2message) := by
  have hline : ∀ line : GoString,
      parseLine line c code2message = parseLine line c' code2message :=
    fun line => parseLine_congr_length line c c' code2message h
  refine ⟨hline, fun lines scanErr => ?_⟩
  apply parseFile_congr
  have hloop : ∀ (mydata : MyData),
      parseFileLoop c code2message mydata lines =
        parseFileLoop c' code2message mydata lines := by
    induction lines with
    | nil => intro mydata; rfl
    | cons l rest ih =>
      intro mydata
      rw [parseFileLoop_cons, parseFileLoop_cons, hline l]
      cases parseLine l c' code2message with
      | none => rfl
      | some message => exact ih _
  exact hloop GoMap.empty

theorem parseLine_ignores_length_witness :
    (∀ line : GoString,
        parseLine line tradeConfig tradeTable = parseLine line relengthConfig tradeTable) ∧
      (∀ (lines : List GoString) (scanErr : Bool),
        parseFile lines scanErr tradeConfig tradeTable =
          parseFile lines scanErr relengthConfig tradeTable) :=
  parseLine_ignores_length tradeConfig relengthConfig tradeTable (by decide)

end FixedWidth

namespace FixedWidth

/-! ## When `parseLine` panics -/

theorem fieldValue_eq_none_iff (line : GoString) (d : SchemaValue)
    (hmax : (line.length : Int) < maxInt) :
    fieldValue line d = none ↔
      (d.Start.val < 1 ∨ (line.length : Int) < d.End.val ∨ d.End.val < d.Start.val - 1) := by
  have hs := d.Start.inRange
  have he := d.End.inRange
  unfold minInt maxInt at hs he
  unfold maxInt at hmax
  unfold fieldValue
  rw [sliceStr_eq_none_iff]
  unfold wrap64
  omega

theorem parseEntries_eq_none_iff (line : GoString) (message : Message)
    (schema : List SchemaValue) :
    parseEntries line message schema = none ↔ ∃ d ∈ schema, fieldValue line d = none := by
  have h := parseEntries_isSome line message schema
  constructor
  · intro hn
    by_contra hex
    have hall : ∀ d ∈ schema, (fieldValue line d).isSome = true := by
      intro d hd
      cases hv : fieldValue line d with
      | some v => rfl
      | none => exact absurd ⟨d, hd, hv⟩ hex
    have := h.2 hall
    rw [hn] at this
    exact absurd this (by simp)
  · rintro ⟨d, hd, hv⟩
    cases hp : parseEntries line message schema with
    | none => rfl
    | some r =>
      have := h.1 (by rw [hp]; rfl) d hd
      rw [hv] at this
      exact absurd this (by simp)

/-- C15: `parseLine` panics exactly when the line has fewer than 20 bytes or
some descriptor of the resolved schema has `start < 1`, `end > len(line)` or
`start - 1 > end`; in every other case it returns a record. No other
validation takes place: a descriptor with `start = end + 1` inside the line
is accepted and yields the empty string. The hypothesis `hmax` says that the
line is shorter than the largest `int`, as every Go string in memory is. -/
theorem parseLine_panics_iff (line : GoString) (c : Config) (code2message : Code2Message)
    (hmax : (line.length : Int) < maxInt) :
    (parseLine line c code2message = none ↔
        (line.length < 20 ∨
          ∃ schema, resolveSchema line c code2message = some schema ∧
            ∃ d ∈ schema, d.Start.val < 1 ∨ (line.length : Int) < d.End.val ∨
              d.End.val < d.Start.val - 1)) ∧
      ((parseLine line c code2message).isSome = true ↔
        ¬ (line.length < 20 ∨
          ∃ schema, resolveSchema line c code2message = some schema ∧
            ∃ d ∈ schema, d.Start.val < 1 ∨ (line.length : Int) < d.End.val ∨
              d.End.val < d.Start.val - 1)) ∧
      (∀ d : SchemaValue, 1 ≤ d.Start.val → d.Start.val = d.End.val + 1 →
        d.End.val ≤ (line.length : Int) → fieldValue line d = some []) := by
  have hiff : parseLine line c code2message = none ↔
      (line.length < 20 ∨
        ∃ schema, resolveSchema line c code2message = some schema ∧
          ∃ d ∈ schema, d.Start.val < 1 ∨ (line.length : Int) < d.End.val ∨
            d.End.val < d.Start.val - 1) := by
    by_cases hlen : 20 ≤ line.length
    · obtain ⟨b, _, hres⟩ := resolveSchema_of_length line c code2message hlen
      rw [parseLine_of_resolveSchema line c code2message _ hres, parseEntries_eq_none_iff]
      constructor
      · rintro ⟨d, hd, hv⟩
        exact Or.inr ⟨_, hres, d, hd, (fieldValue_eq_none_iff line d hmax).1 hv⟩
      · rintro (hshort | ⟨schema, hres', d, hd, hbad⟩)
        · omega
        · rw [hres, Option.some.injEq] at hres'
          subst hres'
          exact ⟨d, hd, (fieldValue_eq_none_iff line d hmax).2 hbad⟩
    · have hshort : line.length < 20 := by omega
      rw [parseLine_short line c code2message hshort]
      exact ⟨fun _ => Or.inl hshort, fun _ => rfl⟩
  refine ⟨hiff, ?_, fun d h1 heq hend => ?_⟩
  · rw [← hiff]
    cases parseLine line c code2message <;> simp
  · have hs := d.Start.inRange
    unfold minInt maxInt at hs
    have hw : wrap64 (d.Start.val - 1) = d.End.val := by
      unfold wrap64
      omega
    unfold fieldValue
    rw [hw, sliceStr_of_bounds line _ _ ⟨by omega, le_refl _, hend⟩]
    simp

theorem parseLine_panics_iff_witness :
    ((parseLine tradeLine zeroStartConfig tradeTable = none ↔
        (tradeLine.length < 20 ∨
          ∃ schema, resolveSchema tradeLine zeroStartConfig tradeTable = some schema ∧
            ∃ d ∈ schema, d.Start.val < 1 ∨ (tradeLine.length : Int) < d.End.val ∨
              d.End.val < d.Start.val - 1)) ∧
      ((parseLine tradeLine zeroStartConfig tradeTable).isSome = true ↔
        ¬ (tradeLine.length < 20 ∨
          ∃ schema, resolveSchema tradeLine zeroStartConfig tradeTable = some schema ∧
            ∃ d ∈ schema, d.Start.val < 1 ∨ (tradeLine.length : Int) < d.End.val ∨
              d.End.val < d.Start.val - 1)) ∧
      (∀ d : SchemaValue, 1 ≤ d.Start.val → d.Start.val = d.End.val + 1 →
        d.End.val ≤ (tradeLine.length : Int) → fieldValue tradeLine d = some [])) ∧
      parseLine tradeLine zeroStartConfig tradeTable = none ∧
      parseLine tradeLine emptyFieldConfig tradeTable = some ⟨[(isin, [])]⟩ :=
  ⟨parseLine_panics_iff tradeLine zeroStartConfig tradeTable (by decide),
    by decide, by decide⟩

end FixedWidth

namespace FixedWidth

/-! ## Aggregation over concatenated inputs -/

/-- C16, as amended: aggregation distributes over concatenation of inputs
whose scans end without error: when `parseLine` succeeds on every line of
`xs` and of `ys`, `parseFile` returns an aggregate for `xs`, for `ys` and for
`xs ++ ys`, and under every key `k` the group of `xs ++ ys` is the group of
`xs` followed by the group of `ys`, an absent group counting as the empty
sequence. Whatever the scans report, three aggregates that `parseFile` returns
for `xs`, `ys` and `xs ++ ys` satisfy the same law; a scan that ends with an
error yields no aggregate. -/
theorem parseFile_append_groups (xs ys : List GoString) (c : Config)
    (code2message : Code2Message)
    (hxs : ∀ l ∈ xs, (parseLine l c code2message).isSome = true)
    (hys : ∀ l ∈ ys, (parseLine l c code2message).isSome = true) :
    (∃ a b ab, parseFile xs false c code2message = some a ∧
      parseFile ys false c code2message = some b ∧
      parseFile (xs ++ ys) false c code2message = some ab ∧
      ∀ k : GoString, ab.index [] k = a.index [] k ++ b.index [] k) ∧
      (∀ (e1 e2 e3 : Bool) (a b ab : MyData),
        parseFile xs e1 c code2message = some a →
        parseFile ys e2 c code2message = some b →
        parseFile (xs ++ ys) e3 c code2message = some ab →
        ∀ k : GoString, ab.index [] k = a.index [] k ++ b.index [] k) ∧
      (∀ zs : List GoString, parseFile zs true c code2message = none) := by
  have hall : ∀ l ∈ xs ++ ys, (parseLine l c code2message).isSome = true := by
    intro l hl
    rcases List.mem_append.1 hl with h | h
    · exact hxs l h
    · exact hys l h
  have hx := parseFileLoop_of_all c code2message GoMap.empty xs hxs
  have hy := parseFileLoop_of_all c code2message GoMap.empty ys hys
  have hxy := parseFileLoop_of_all c code2message GoMap.empty (xs ++ ys) hall
  have hlaw : ∀ k : GoString,
      (((xs ++ ys).filterMap (fun l => parseLine l c code2message)).foldl aggregate
          GoMap.empty).index [] k =
        ((xs.filterMap (fun l => parseLine l c code2message)).foldl aggregate
            GoMap.empty).index [] k ++
          ((ys.filterMap (fun l => parseLine l c code2message)).foldl aggregate
            GoMap.empty).index [] k := by
    intro k
    rw [foldl_aggregate_index, foldl_aggregate_index, foldl_aggregate_index,
      GoMap.index_empty, List.nil_append, List.nil_append, List.nil_append,
      List.filterMap_append, List.filter_append]
  refine ⟨⟨_, _, _, ?_, ?_, ?_, hlaw⟩, fun e1 e2 e3 a b ab ha hb hab => ?_,
    fun zs => parseFile_scan_error zs c code2message⟩
  · rw [parseFile_no_scan_error]
    exact hx
  · rw [parseFile_no_scan_error]
    exact hy
  · rw [parseFile_no_scan_error]
    exact hxy
  · have ha' := (parseFile_eq_some xs e1 c code2message a ha).2
    have hb' := (parseFile_eq_some ys e2 c code2message b hb).2
    have hab' := (parseFile_eq_some (xs ++ ys) e3 c code2message ab hab).2
    rw [hx, Option.some.injEq] at ha'
    rw [hy, Option.some.injEq] at hb'
    rw [hxy, Option.some.injEq] at hab'
    subst ha' hb' hab'
    exact hlaw

theorem parseFile_append_groups_witness :
    (∃ a b ab, parseFile [tradeLine, latin1Line] false tradeConfig tradeTable = some a ∧
      parseFile [tradeLine] false tradeConfig tradeTable = some b ∧
      parseFile ([tradeLine, latin1Line] ++ [tradeLine]) false tradeConfig tradeTable =
        some ab ∧
      ∀ k : GoString, ab.index [] k = a.index [] k ++ b.index [] k) ∧
      (∀ (e1 e2 e3 : Bool) (a b ab : MyData),
        parseFile [tradeLine, latin1Line] e1 tradeConfig tradeTable = some a →
        parseFile [tradeLine] e2 tradeConfig tradeTable = some b →
        parseFile ([tradeLine, latin1Line] ++ [tradeLine]) e3 tradeConfig tradeTable =
          some ab →
        ∀ k : GoString, ab.index [] k = a.index [] k ++ b.index [] k) ∧
      (∀ zs : List GoString, parseFile zs true tradeConfig tradeTable = none) :=
  parseFile_append_groups [tradeLine, latin1Line] [tradeLine] tradeConfig tradeTable
    (by decide) (by decide)

/-- C16 as stated fails: `parseLine` succeeds on every line of `xs` and of
`ys`, and the run on `xs` returns an aggregate with one record under
`US0378331005`; but the scans of `ys` and of `xs ++ ys` end with an error (a
read error or an over-long line after the last line delivered), so these two
runs end in `log.Fatal` and there is no aggregate of `ys` or of `xs ++ ys`
whose groups the law could relate. -/
theorem parseFile_append_scan_error_counterexample :
    (∀ l ∈ [tradeLine], (parseLine l tradeConfig tradeTable).isSome = true) ∧
      parseFile [tradeLine] false tradeConfig tradeTable =
        some ⟨[([85, 83, 48, 51, 55, 56, 51, 51, 49, 48, 48, 53], [tradeRecord])]⟩ ∧
      parseFile [tradeLine] true tradeConfig tradeTable = none ∧
      parseFile ([tradeLine] ++ [tradeLine]) true tradeConfig tradeTable = none ∧
      ¬ (∃ a b ab, parseFile [tradeLine] false tradeConfig tradeTable = some a ∧
          parseFile [tradeLine] true tradeConfig tradeTable = some b ∧
          parseFile ([tradeLine] ++ [tradeLine]) true tradeConfig tradeTable = some ab ∧
          ∀ k : GoString, ab.index [] k = a.index [] k ++ b.index [] k) := by
  refine ⟨by decide, by decide, by decide, by decide, ?_⟩
  rintro ⟨a, b, ab, _, hb, _, _⟩
  have hnone : parseFile [tradeLine] true tradeConfig tradeTable = none := by decide
  rw [hnone] at hb
  exact absurd hb (by simp)

end FixedWidth
